import Mathlib

/-!
Verification of the bytesbox table engine (src/src/lib.rs).

The Rust code is shallowly embedded: byte vectors (Vec<u8>) become List Nat,
the singly linked Entry chain of a bucket becomes a List of key/value records
(head of the list = head of the chain), and the bucket array becomes a list of
chains (an empty chain models a None bucket slot).  Machine arithmetic in the
hash is modelled on Nat with explicit reduction modulo 2 ^ 64.  Operations that
can panic in Rust (the modulo-by-zero reduction in hpulse when the allocation
is zero, and the bucket indexing) return Option: none models a panic.
-/

namespace Bytesbox

/-- FNV-1a offset basis, as in the Rust constant OFFSET in hpulse. -/
def OFFSET : Nat := 14695981039346656037

/-- FNV-1a prime, as in the Rust constant PRIME in hpulse. -/
def PRIME : Nat := 1099511628211

/-- Modulus of 64-bit wraparound arithmetic. -/
def U64 : Nat := 2 ^ 64

/-- Accumulator loop of ByteBox::hpulse: starting from the offset basis, XOR
each key byte into the hash and multiply by the prime with wrapping (mod 2^64)
multiplication.  XOR of two numbers below 2^64 stays below 2^64, so only the
multiplication needs the explicit reduction, exactly like wrapping_mul. -/
def fnv1a (key : List Nat) : Nat :=
  key.foldl (fun hash byte => ((hash ^^^ byte) * PRIME) % U64) OFFSET

/-- ByteBox::hpulse: the final reduction hash % alloc.  In Rust the remainder
by zero panics, which is modelled by none when alloc = 0. -/
def hpulse (key : List Nat) (alloc : Nat) : Option Nat :=
  if alloc = 0 then none else some (fnv1a key % alloc)

/-- One stored key/value pair (struct Entry without its next pointer: chains
are rendered as lists). -/
structure Entry where
  key : List Nat
  val : List Nat
deriving DecidableEq

/-- A bucket's chain: the Option<Box<Entry>> linked list, head first. -/
abbrev Chain := List Entry

/-- The table (struct ByteBox): cells is the bucket array, alloc the current
allocation, len the number of stored pairs. -/
structure ByteBox where
  cells : List Chain
  alloc : Nat
  len : Nat
deriving DecidableEq

/-- ByteBox::prealloc: a bucket array of size empty slots, alloc = size,
len = 0.  Note that size = 0 is accepted as-is. -/
def ByteBox.prealloc (size : Nat) : ByteBox :=
  { cells := List.replicate size [], alloc := size, len := 0 }

/-- ByteBox::new: prealloc with the default allocation 16. -/
def ByteBox.new : ByteBox := ByteBox.prealloc 16

/-- The scan-and-overwrite loop of ByteBox::insert: walk the chain; on the
first entry whose key equals the inserted key, overwrite its value in place
and stop (some result); none when no entry matches. -/
def updateChain (key val : List Nat) : Chain → Option Chain
  | [] => none
  | e :: rest =>
    if e.key = key then some ({ key := e.key, val := val } :: rest)
    else
      match updateChain key val rest with
      | some rest2 => some (e :: rest2)
      | none => none

/-- The lookup loop of ByteBox::get: first entry in the chain whose key
matches, if any. -/
def findChain (key : List Nat) : Chain → Option (List Nat)
  | [] => none
  | e :: rest => if e.key = key then some e.val else findChain key rest

/-- The unlink loop of ByteBox::remove: on the first matching entry, the
predecessor link (the bucket slot for the head, the previous next pointer
otherwise) takes ownership of the removed node's next; returns the new chain
and the removed value. -/
def removeChain (key : List Nat) : Chain → Option (Chain × List Nat)
  | [] => none
  | e :: rest =>
    if e.key = key then some (rest, e.val)
    else
      match removeChain key rest with
      | some (rest2, v) => some (e :: rest2, v)
      | none => none

/-- Redistribution loop of ByteBox::resize: detach entries one by one (bucket
by bucket, head of chain first — the flattening order of the old cells) and
prepend each at its index recomputed under the new allocation.  A failed
hpulse or an out-of-range index models a panic. -/
def rehashInto (alloc2 : Nat) : List Chain → List Entry → Option (List Chain)
  | cells, [] => some cells
  | cells, e :: rest =>
    match hpulse e.key alloc2 with
    | none => none
    | some idx =>
      if idx < cells.length then
        rehashInto alloc2 (cells.set idx (e :: cells.getD idx [])) rest
      else none

/-- ByteBox::resize: double the allocation, allocate a fresh bucket array of
the new length, and re-prepend every existing entry at its recomputed index. -/
def ByteBox.resize (bb : ByteBox) : Option ByteBox :=
  match rehashInto (bb.alloc * 2) (List.replicate (bb.alloc * 2) []) bb.cells.flatten with
  | some cells2 => some { cells := cells2, alloc := bb.alloc * 2, len := bb.len }
  | none => none

/-- ByteBox::insert.  The load-factor test self.load_factor() > 0.75, i.e.
(len : f64) / alloc > 0.75, is modelled exactly by 3 * alloc < 4 * len: the two
agree on every state the program can build, including alloc = 0 where the f64
quotient is NaN (len = 0, both false) or +inf (len > 0, both true).  The test
runs before the bucket is located, so the index is computed under the possibly
doubled allocation. -/
def ByteBox.insert (bb : ByteBox) (key val : List Nat) : Option (ByteBox × Bool) :=
  match (if 3 * bb.alloc < 4 * bb.len then bb.resize else some bb) with
  | none => none
  | some bb1 =>
    match hpulse key bb1.alloc with
    | none => none
    | some idx =>
      if idx < bb1.cells.length then
        match updateChain key val (bb1.cells.getD idx []) with
        | some chain2 => some ({ bb1 with cells := bb1.cells.set idx chain2 }, false)
        | none =>
          some ({ bb1 with
                  cells := bb1.cells.set idx
                    ({ key := key, val := val } :: bb1.cells.getD idx []),
                  len := bb1.len + 1 }, true)
      else none

/-- ByteBox::get: locate the bucket, scan its chain. -/
def ByteBox.get (bb : ByteBox) (key : List Nat) : Option (Option (List Nat)) :=
  match hpulse key bb.alloc with
  | none => none
  | some idx =>
    if idx < bb.cells.length then some (findChain key (bb.cells.getD idx []))
    else none

/-- ByteBox::remove: locate the bucket, unlink the first matching entry and
decrement len; absent keys leave the table untouched. -/
def ByteBox.remove (bb : ByteBox) (key : List Nat) : Option (ByteBox × Option (List Nat)) :=
  match hpulse key bb.alloc with
  | none => none
  | some idx =>
    if idx < bb.cells.length then
      match removeChain key (bb.cells.getD idx []) with
      | some (chain2, v) =>
        some ({ bb with cells := bb.cells.set idx chain2, len := bb.len - 1 }, some v)
      | none => some (bb, none)
    else none

/-- The pair sequence produced by ByteBoxIterator::next as written in
src/src/lib.rs lines 929-938: scan the cells in ascending index order and, for
each non-empty cell, yield the key/value of the chain head only — the loop
never follows the next pointers of a chain. -/
def ByteBox.iterPairs (bb : ByteBox) : List (List Nat × List Nat) :=
  bb.cells.filterMap fun chain => chain.head?.map fun e => (e.key, e.val)

/-- Modelled from the spec: ByteBox::clear is listed in the spec (section 4.2)
and exercised by tests/clear.rs, but no clear method appears in
src/src/lib.rs.  Spec wording: discards every chain, resets every bucket slot
to empty, sets count = 0; capacity is retained (no reallocation). -/
def ByteBox.clear (bb : ByteBox) : ByteBox :=
  { cells := List.replicate bb.alloc [], alloc := bb.alloc, len := 0 }

/-- Indexer written from the words of the spec (section 4.1), for comparison
with hpulse: initialize an accumulator to a fixed 64-bit offset basis; for
each byte of the key, XOR the accumulator with the byte, then multiply by a
fixed 64-bit prime using wraparound (modulo 2^64) arithmetic; after consuming
all bytes, reduce the accumulator modulo the capacity. -/
def indexSpec (key : List Nat) (capacity : Nat) : Nat :=
  (key.foldl (fun acc byte => ((acc ^^^ byte) * 1099511628211) % 2 ^ 64)
    14695981039346656037) % capacity

/-- All entries stored in the table, in bucket order and chain order. -/
def ByteBox.entries (bb : ByteBox) : List Entry := bb.cells.flatten

/-- The keys stored in the table, in traversal order. -/
def ByteBox.keyList (bb : ByteBox) : List (List Nat) := bb.entries.map Entry.key

/-- Basic well-formedness: a positive allocation and a bucket array of exactly
that length.  Every constructor and operation of the library maintains it
(prealloc is only ever called with 16 by new, or by the user). -/
def ByteBox.WF (bb : ByteBox) : Prop := 0 < bb.alloc ∧ bb.cells.length = bb.alloc

/-- Hashing invariant: every entry sits in the bucket its key hashes to under
the current allocation. -/
def ByteBox.Placed (bb : ByteBox) : Prop :=
  ∀ i < bb.cells.length, ∀ e ∈ bb.cells.getD i [], hpulse e.key bb.alloc = some i

/-- The reachable-state invariant of the table: well-formed, every entry in
its home bucket, no duplicate keys, and len counting the stored entries. -/
def ByteBox.Inv (bb : ByteBox) : Prop :=
  bb.WF ∧ bb.Placed ∧ bb.keyList.Nodup ∧ bb.len = bb.entries.length

instance (bb : ByteBox) : Decidable bb.WF :=
  inferInstanceAs (Decidable (0 < bb.alloc ∧ bb.cells.length = bb.alloc))

instance (bb : ByteBox) : Decidable bb.Placed :=
  inferInstanceAs (Decidable (∀ i < bb.cells.length, ∀ e ∈ bb.cells.getD i [],
    hpulse e.key bb.alloc = some i))

instance (bb : ByteBox) : Decidable bb.Inv :=
  inferInstanceAs (Decidable (bb.WF ∧ bb.Placed ∧ bb.keyList.Nodup ∧
    bb.len = bb.entries.length))

/-- Run a sequence of insertions, keeping only the final table. -/
def insertSeq (bb : ByteBox) : List (List Nat × List Nat) → Option ByteBox
  | [] => some bb
  | (k, v) :: rest =>
    match bb.insert k v with
    | some (bb2, _) => insertSeq bb2 rest
    | none => none

/-! Chain-level lemmas, all by induction on the chain. -/

theorem findChain_eq_none_iff (key : List Nat) (chain : Chain) :
    findChain key chain = none ↔ ∀ e ∈ chain, e.key ≠ key := by
  induction chain with
  | nil => simp [findChain]
  | cons e rest ih =>
    by_cases hk : e.key = key
    · simp [findChain, hk]
    · simp [findChain, hk, ih]

theorem findChain_eq_some_iff (key v : List Nat) (chain : Chain)
    (hnd : (chain.map Entry.key).Nodup) :
    findChain key chain = some v ↔ ∃ e ∈ chain, e.key = key ∧ e.val = v := by
  induction chain with
  | nil => simp [findChain]
  | cons e rest ih =>
    simp only [List.map_cons, List.nodup_cons, List.mem_map] at hnd
    by_cases hk : e.key = key
    · simp only [findChain, if_pos hk, Option.some.injEq]
      constructor
      · rintro rfl
        exact ⟨e, List.mem_cons_self e rest, hk, rfl⟩
      · rintro ⟨e2, he2, hk2, rfl⟩
        rcases List.mem_cons.mp he2 with rfl | he2
        · rfl
        · exact absurd ⟨e2, he2, (hk2.trans hk.symm)⟩ hnd.1
    · simp only [findChain, if_neg hk, ih hnd.2]
      constructor
      · rintro ⟨e2, he2, hk2, hv2⟩
        exact ⟨e2, List.mem_cons_of_mem e he2, hk2, hv2⟩
      · rintro ⟨e2, he2, hk2, hv2⟩
        rcases List.mem_cons.mp he2 with rfl | he2
        · exact absurd hk2 hk
        · exact ⟨e2, he2, hk2, hv2⟩

theorem updateChain_eq_none_iff (key val : List Nat) (chain : Chain) :
    updateChain key val chain = none ↔ ∀ e ∈ chain, e.key ≠ key := by
  induction chain with
  | nil => simp [updateChain]
  | cons e rest ih =>
    by_cases hk : e.key = key
    · simp [updateChain, hk]
    · rw [updateChain, if_neg hk]
      cases h : updateChain key val rest with
      | none =>
        have hall := ih.mp h
        constructor
        · intro _ e2 he2
          rcases List.mem_cons.mp he2 with rfl | he2
          · exact hk
          · exact hall e2 he2
        · intro _
          rfl
      | some r2 =>
        have : ¬ (∀ e2 ∈ rest, e2.key ≠ key) := by
          intro hall
          rw [ih.mpr hall] at h
          exact Option.noConfusion h
        simp only [List.mem_cons]
        constructor
        · intro hfalse
          exact Option.noConfusion hfalse
        · intro hall
          exact absurd (fun e2 he2 => hall e2 (Or.inr he2)) this

theorem updateChain_some_spec (key val : List Nat) (chain chain2 : Chain)
    (h : updateChain key val chain = some chain2) :
    chain2.map Entry.key = chain.map Entry.key ∧
    chain2.length = chain.length ∧
    findChain key chain2 = some val := by
  induction chain generalizing chain2 with
  | nil => simp [updateChain] at h
  | cons e rest ih =>
    by_cases hk : e.key = key
    · rw [updateChain, if_pos hk] at h
      obtain rfl := Option.some.inj h
      exact ⟨by simp, by simp, by simp [findChain, hk]⟩
    · rw [updateChain, if_neg hk] at h
      cases h2 : updateChain key val rest with
      | none => rw [h2] at h; exact Option.noConfusion h
      | some r2 =>
        rw [h2] at h
        obtain rfl := Option.some.inj h
        obtain ⟨hmap, hlen, hfind⟩ := ih r2 h2
        exact ⟨by simp [hmap], by simp [hlen], by simp [findChain, hk, hfind]⟩

theorem removeChain_eq_none_iff (key : List Nat) (chain : Chain) :
    removeChain key chain = none ↔ ∀ e ∈ chain, e.key ≠ key := by
  induction chain with
  | nil => simp [removeChain]
  | cons e rest ih =>
    by_cases hk : e.key = key
    · simp [removeChain, hk]
    · rw [removeChain, if_neg hk]
      cases h : removeChain key rest with
      | none =>
        have hall := ih.mp h
        constructor
        · intro _ e2 he2
          rcases List.mem_cons.mp he2 with rfl | he2
          · exact hk
          · exact hall e2 he2
        · intro _
          rfl
      | some p =>
        have : ¬ (∀ e2 ∈ rest, e2.key ≠ key) := by
          intro hall
          rw [ih.mpr hall] at h
          exact Option.noConfusion h
        simp only [List.mem_cons]
        constructor
        · intro hfalse
          exact Option.noConfusion hfalse
        · intro hall
          exact absurd (fun e2 he2 => hall e2 (Or.inr he2)) this

theorem removeChain_some_spec (key v : List Nat) (chain chain2 : Chain)
    (h : removeChain key chain = some (chain2, v)) :
    findChain key chain = some v ∧
    chain2.length + 1 = chain.length ∧
    List.Sublist chain2 chain ∧
    ∀ k2, k2 ≠ key → findChain k2 chain2 = findChain k2 chain := by
  induction chain generalizing chain2 with
  | nil => simp [removeChain] at h
  | cons e rest ih =>
    by_cases hk : e.key = key
    · rw [removeChain, if_pos hk] at h
      have hp := Option.some.inj h
      obtain rfl : rest = chain2 := congrArg Prod.fst hp
      obtain rfl : e.val = v := congrArg Prod.snd hp
      refine ⟨by simp [findChain, hk], rfl, List.sublist_cons_self e rest,
        fun k2 hk2 => ?_⟩
      rw [findChain, if_neg (by rw [hk]; exact fun hc => hk2 hc.symm)]
    · rw [removeChain, if_neg hk] at h
      cases h2 : removeChain key rest with
      | none => rw [h2] at h; exact Option.noConfusion h
      | some p =>
        rw [h2] at h
        have hp := Option.some.inj h
        obtain rfl : e :: p.1 = chain2 := congrArg Prod.fst hp
        have hv : p.2 = v := congrArg Prod.snd hp
        obtain ⟨hfind, hlen, hsub, hother⟩ := ih p.1 (by rw [h2, ← hv])
        refine ⟨by simp [findChain, hk, hfind], by simp [← hlen],
          List.Sublist.cons₂ e hsub, fun k2 hk2 => ?_⟩
        by_cases hek : e.key = k2
        · simp [findChain, hek]
        · simp [findChain, hek, hother k2 hk2]

theorem removeChain_key_out (key v : List Nat) (chain chain2 : Chain)
    (hnd : (chain.map Entry.key).Nodup)
    (h : removeChain key chain = some (chain2, v)) :
    ∀ e ∈ chain2, e.key ≠ key := by
  induction chain generalizing chain2 with
  | nil => simp [removeChain] at h
  | cons e rest ih =>
    simp only [List.map_cons, List.nodup_cons, List.mem_map] at hnd
    by_cases hk : e.key = key
    · rw [removeChain, if_pos hk] at h
      obtain rfl : rest = chain2 := congrArg Prod.fst (Option.some.inj h)
      intro e2 he2 hk2
      exact hnd.1 ⟨e2, he2, hk2.trans hk.symm⟩
    · rw [removeChain, if_neg hk] at h
      cases h2 : removeChain key rest with
      | none => rw [h2] at h; exact Option.noConfusion h
      | some p =>
        rw [h2] at h
        have hp := Option.some.inj h
        obtain rfl : e :: p.1 = chain2 := congrArg Prod.fst hp
        have hv : p.2 = v := congrArg Prod.snd hp
        intro e2 he2
        rcases List.mem_cons.mp he2 with rfl | he2
        · exact hk
        · exact ih p.1 hnd.2 (by rw [h2, ← hv]) e2 he2

/-! Bucket-array level lemmas: getD/set interaction and flattening a bucket
array around one distinguished index. -/

theorem getD_replicate_nil (n i : Nat) : (List.replicate n ([] : Chain)).getD i [] = [] := by
  rcases Nat.lt_or_ge i n with h | h
  · rw [List.getD_eq_getElem _ _ (by simpa using h)]
    simp
  · rw [List.getD_eq_default _ _ (by simpa using h)]

theorem getD_set_self (cells : List Chain) (i : Nat) (c : Chain)
    (h : i < cells.length) : (cells.set i c).getD i [] = c := by
  rw [List.getD_eq_getElem _ _ (by simpa using h)]
  exact List.getElem_set_self _

theorem getD_set_ne (cells : List Chain) (i j : Nat) (c : Chain) (h : i ≠ j) :
    (cells.set i c).getD j [] = cells.getD j [] := by
  rcases Nat.lt_or_ge j cells.length with hj | hj
  · rw [List.getD_eq_getElem _ _ (by simpa using hj),
      List.getD_eq_getElem _ _ hj]
    exact List.getElem_set_ne h _
  · rw [List.getD_eq_default _ _ (by simpa using hj),
      List.getD_eq_default _ _ hj]

theorem cells_eq_decomp (cells : List Chain) (i : Nat) (h : i < cells.length) :
    cells = cells.take i ++ cells.getD i [] :: cells.drop (i + 1) := by
  rw [List.getD_eq_getElem _ _ h]
  conv_lhs => rw [← List.take_append_drop i cells]
  rw [List.getElem_cons_drop cells i h]

theorem set_eq_decomp (cells : List Chain) (i : Nat) (c : Chain)
    (h : i < cells.length) :
    cells.set i c = cells.take i ++ c :: cells.drop (i + 1) :=
  List.set_eq_take_cons_drop c h

theorem flatten_decomp (cells : List Chain) (i : Nat) (h : i < cells.length) :
    cells.flatten = (cells.take i).flatten ++
      (cells.getD i [] ++ (cells.drop (i + 1)).flatten) := by
  conv_lhs => rw [cells_eq_decomp cells i h]
  simp

theorem flatten_set_decomp (cells : List Chain) (i : Nat) (c : Chain)
    (h : i < cells.length) :
    (cells.set i c).flatten = (cells.take i).flatten ++
      (c ++ (cells.drop (i + 1)).flatten) := by
  rw [set_eq_decomp cells i c h]
  simp

theorem mem_take_flatten (cells : List Chain) (i : Nat) (e : Entry)
    (he : e ∈ (cells.take i).flatten) :
    ∃ j, ∃ _ : j < cells.length, j < i ∧ e ∈ cells.getD j [] := by
  obtain ⟨c, hc, hec⟩ := List.mem_flatten.mp he
  obtain ⟨j, hj, hcj⟩ := List.mem_iff_getElem.mp hc
  have hj2 : j < i ∧ j < cells.length := by
    have := hj
    simp only [List.length_take, Nat.lt_min] at this
    exact this
  refine ⟨j, hj2.2, hj2.1, ?_⟩
  rw [List.getD_eq_getElem _ _ hj2.2, ← List.getElem_take cells]
  · exact hcj ▸ hec

theorem mem_drop_flatten (cells : List Chain) (i : Nat) (e : Entry)
    (he : e ∈ (cells.drop (i + 1)).flatten) :
    ∃ j, ∃ _ : j < cells.length, i + 1 ≤ j ∧ e ∈ cells.getD j [] := by
  obtain ⟨c, hc, hec⟩ := List.mem_flatten.mp he
  obtain ⟨j, hj, hcj⟩ := List.mem_iff_getElem.mp hc
  have hj2 : i + 1 + j < cells.length := by
    have := hj
    simp only [List.length_drop] at this
    omega
  refine ⟨i + 1 + j, hj2, by omega, ?_⟩
  rw [List.getD_eq_getElem _ _ hj2, ← List.getElem_drop cells]
  exact hcj ▸ hec

/-! Consequences of the hashing invariant: a key can only live in its home
bucket, and lookups are characterized by the stored entries. -/

theorem hpulse_some (key : List Nat) (alloc : Nat) (h : 0 < alloc) :
    hpulse key alloc = some (fnv1a key % alloc) := by
  rw [hpulse, if_neg (Nat.pos_iff_ne_zero.mp h)]

theorem hpulse_lt (key : List Nat) (alloc i : Nat) (h : hpulse key alloc = some i) :
    i < alloc := by
  rw [hpulse] at h
  by_cases h0 : alloc = 0
  · rw [if_pos h0] at h
    exact Option.noConfusion h
  · rw [if_neg h0] at h
    obtain rfl := Option.some.inj h
    exact Nat.mod_lt _ (Nat.pos_of_ne_zero h0)

theorem placed_ne_of_other_bucket (bb : ByteBox) (hp : bb.Placed) (k : List Nat)
    (idx : Nat) (hidx : hpulse k bb.alloc = some idx) (j : Nat)
    (hj : j < bb.cells.length) (hne : j ≠ idx) :
    ∀ e ∈ bb.cells.getD j [], e.key ≠ k := by
  intro e he hek
  have := hp j hj e he
  rw [hek, hidx] at this
  exact hne (Option.some.inj this).symm

theorem take_flatten_key_ne (bb : ByteBox) (hp : bb.Placed) (k : List Nat)
    (idx : Nat) (hidx : hpulse k bb.alloc = some idx) :
    ∀ e ∈ (bb.cells.take idx).flatten, e.key ≠ k := by
  intro e he
  obtain ⟨j, hj, hji, hmem⟩ := mem_take_flatten bb.cells idx e he
  exact placed_ne_of_other_bucket bb hp k idx hidx j hj (Nat.ne_of_lt hji) e hmem

theorem drop_flatten_key_ne (bb : ByteBox) (hp : bb.Placed) (k : List Nat)
    (idx : Nat) (hidx : hpulse k bb.alloc = some idx) :
    ∀ e ∈ (bb.cells.drop (idx + 1)).flatten, e.key ≠ k := by
  intro e he
  obtain ⟨j, hj, hji, hmem⟩ := mem_drop_flatten bb.cells idx e he
  exact placed_ne_of_other_bucket bb hp k idx hidx j hj (by omega) e hmem

theorem mem_entries_iff_mem_home (bb : ByteBox) (hp : bb.Placed) (k : List Nat)
    (idx : Nat) (hidx : hpulse k bb.alloc = some idx) (h : idx < bb.cells.length)
    (e : Entry) (hek : e.key = k) :
    e ∈ bb.entries ↔ e ∈ bb.cells.getD idx [] := by
  rw [ByteBox.entries, flatten_decomp bb.cells idx h]
  constructor
  · intro hmem
    rcases List.mem_append.mp hmem with hmem | hmem
    · exact absurd hek (take_flatten_key_ne bb hp k idx hidx e hmem)
    · rcases List.mem_append.mp hmem with hmem | hmem
      · exact hmem
      · exact absurd hek (drop_flatten_key_ne bb hp k idx hidx e hmem)
  · intro hmem
    exact List.mem_append.mpr (Or.inr (List.mem_append.mpr (Or.inl hmem)))

theorem mem_keyList_iff_mem_home (bb : ByteBox) (hp : bb.Placed) (k : List Nat)
    (idx : Nat) (hidx : hpulse k bb.alloc = some idx) (h : idx < bb.cells.length) :
    k ∈ bb.keyList ↔ ∃ e ∈ bb.cells.getD idx [], e.key = k := by
  rw [ByteBox.keyList, List.mem_map]
  constructor
  · rintro ⟨e, he, rfl⟩
    exact ⟨e, (mem_entries_iff_mem_home bb hp e.key idx hidx h e rfl).mp he, rfl⟩
  · rintro ⟨e, he, rfl⟩
    exact ⟨e, (mem_entries_iff_mem_home bb hp e.key idx hidx h e rfl).mpr he, rfl⟩

theorem nodup_home (bb : ByteBox) (hnd : bb.keyList.Nodup) (idx : Nat)
    (h : idx < bb.cells.length) :
    ((bb.cells.getD idx []).map Entry.key).Nodup := by
  have hdec : bb.keyList = ((bb.cells.take idx).flatten.map Entry.key) ++
      (((bb.cells.getD idx []).map Entry.key) ++
        ((bb.cells.drop (idx + 1)).flatten.map Entry.key)) := by
    rw [ByteBox.keyList, ByteBox.entries, flatten_decomp bb.cells idx h]
    simp
  rw [hdec] at hnd
  exact hnd.of_append_right.of_append_left

theorem get_eq_of_inv (bb : ByteBox) (h : bb.Inv) (k : List Nat) :
    bb.get k = some (findChain k (bb.cells.getD (fnv1a k % bb.alloc) [])) := by
  obtain ⟨⟨hA, hL⟩, hp, hnd, hlen⟩ := h
  rw [ByteBox.get, hpulse_some k bb.alloc hA]
  show (if fnv1a k % bb.alloc < bb.cells.length then
    some (findChain k (bb.cells.getD (fnv1a k % bb.alloc) [])) else none) = _
  rw [if_pos (by rw [hL]; exact Nat.mod_lt _ hA)]

theorem get_none_iff (bb : ByteBox) (h : bb.Inv) (k : List Nat) :
    bb.get k = some none ↔ k ∉ bb.keyList := by
  obtain ⟨⟨hA, hL⟩, hp, hnd, hlen⟩ := h
  have hidx : hpulse k bb.alloc = some (fnv1a k % bb.alloc) := hpulse_some k bb.alloc hA
  have hlt : fnv1a k % bb.alloc < bb.cells.length := by
    rw [hL]; exact Nat.mod_lt _ hA
  rw [get_eq_of_inv bb ⟨⟨hA, hL⟩, hp, hnd, hlen⟩ k, Option.some.injEq,
    findChain_eq_none_iff, mem_keyList_iff_mem_home bb hp k _ hidx hlt]
  constructor
  · rintro hall ⟨e, he, hek⟩
    exact hall e he hek
  · intro hnone e he hek
    exact hnone ⟨e, he, hek⟩

theorem get_some_iff (bb : ByteBox) (h : bb.Inv) (k v : List Nat) :
    bb.get k = some (some v) ↔ ∃ e ∈ bb.entries, e.key = k ∧ e.val = v := by
  obtain ⟨⟨hA, hL⟩, hp, hnd, hlen⟩ := h
  have hidx : hpulse k bb.alloc = some (fnv1a k % bb.alloc) := hpulse_some k bb.alloc hA
  have hlt : fnv1a k % bb.alloc < bb.cells.length := by
    rw [hL]; exact Nat.mod_lt _ hA
  rw [get_eq_of_inv bb ⟨⟨hA, hL⟩, hp, hnd, hlen⟩ k, Option.some.injEq,
    findChain_eq_some_iff k v _ (nodup_home bb hnd _ hlt)]
  constructor
  · rintro ⟨e, he, hek, hev⟩
    exact ⟨e, (mem_entries_iff_mem_home bb hp k _ hidx hlt e hek).mpr he, hek, hev⟩
  · rintro ⟨e, he, hek, hev⟩
    exact ⟨e, (mem_entries_iff_mem_home bb hp k _ hidx hlt e hek).mp he, hek, hev⟩

theorem get_congr_of_perm (bb bb2 : ByteBox) (h : bb.Inv) (h2 : bb2.Inv)
    (hperm : List.Perm bb2.entries bb.entries) (k : List Nat) :
    bb2.get k = bb.get k := by
  have htot := get_eq_of_inv bb h k
  cases hf : findChain k (bb.cells.getD (fnv1a k % bb.alloc) []) with
  | none =>
    rw [hf] at htot
    have hk : k ∉ bb.keyList := (get_none_iff bb h k).mp htot
    have hk2 : k ∉ bb2.keyList := by
      intro hmem
      apply hk
      rw [ByteBox.keyList, List.mem_map] at hmem ⊢
      obtain ⟨e, he, rfl⟩ := hmem
      exact ⟨e, hperm.mem_iff.mp he, rfl⟩
    rw [htot, (get_none_iff bb2 h2 k).mpr hk2]
  | some v =>
    rw [hf] at htot
    obtain ⟨e, he, hek, hev⟩ := (get_some_iff bb h k v).mp htot
    rw [htot, (get_some_iff bb2 h2 k v).mpr ⟨e, hperm.mem_iff.mpr he, hek, hev⟩]

/-! Resize machinery: the redistribution loop succeeds on any well-formed
input, permutes the stored entries, and re-establishes the hashing
invariant under the doubled allocation. -/

theorem flatten_replicate_nil (n : Nat) :
    (List.replicate n ([] : Chain)).flatten = [] := by
  induction n with
  | zero => rfl
  | succ n ih => simp [List.replicate_succ, ih]

theorem rehashInto_spec (alloc2 : Nat) (h2 : 0 < alloc2) :
    ∀ (l : List Entry) (cells : List Chain), cells.length = alloc2 →
    ∃ cells2, rehashInto alloc2 cells l = some cells2 ∧
      cells2.length = alloc2 ∧
      List.Perm cells2.flatten (l ++ cells.flatten) ∧
      ((∀ j < cells.length, ∀ e ∈ cells.getD j [], hpulse e.key alloc2 = some j) →
        ∀ j < cells2.length, ∀ e ∈ cells2.getD j [], hpulse e.key alloc2 = some j) := by
  intro l
  induction l with
  | nil =>
    intro cells hlen
    exact ⟨cells, rfl, hlen, List.Perm.refl _, fun h => h⟩
  | cons e rest ih =>
    intro cells hlen
    have hidx : hpulse e.key alloc2 = some (fnv1a e.key % alloc2) :=
      hpulse_some _ _ h2
    have hlt : fnv1a e.key % alloc2 < cells.length := by
      rw [hlen]; exact Nat.mod_lt _ h2
    obtain ⟨cells2, hrun, hlen2, hperm, hplace⟩ :=
      ih (cells.set (fnv1a e.key % alloc2)
        (e :: cells.getD (fnv1a e.key % alloc2) [])) (by simp [hlen])
    have hstep : List.Perm
        (cells.set (fnv1a e.key % alloc2)
          (e :: cells.getD (fnv1a e.key % alloc2) [])).flatten
        (e :: cells.flatten) := by
      rw [flatten_set_decomp cells _ _ hlt]
      conv_rhs => rw [flatten_decomp cells _ hlt]
      rw [List.cons_append]
      exact List.perm_middle
    refine ⟨cells2, ?_, hlen2, ?_, ?_⟩
    · rw [rehashInto, hidx]
      show (if fnv1a e.key % alloc2 < cells.length then
        rehashInto alloc2 (cells.set (fnv1a e.key % alloc2)
          (e :: cells.getD (fnv1a e.key % alloc2) [])) rest else none) = _
      rw [if_pos hlt, hrun]
    · exact hperm.trans ((List.Perm.append_left rest hstep).trans List.perm_middle)
    · intro hcells
      apply hplace
      intro j hj e2 he2
      by_cases hji : fnv1a e.key % alloc2 = j
      · subst hji
        rw [getD_set_self _ _ _ hlt] at he2
        rcases List.mem_cons.mp he2 with rfl | he2
        · exact hidx
        · exact hcells _ hlt e2 he2
      · rw [getD_set_ne _ _ _ _ hji] at he2
        have hj2 : j < cells.length := by simpa using hj
        exact hcells j hj2 e2 he2

theorem resize_spec (bb : ByteBox) (h : bb.Inv) :
    ∃ bb2, bb.resize = some bb2 ∧ bb2.alloc = bb.alloc * 2 ∧ bb2.len = bb.len ∧
      bb2.Inv ∧ List.Perm bb2.entries bb.entries := by
  obtain ⟨⟨hA, hL⟩, hp, hnd, hlen⟩ := h
  have h2 : 0 < bb.alloc * 2 := by omega
  obtain ⟨cells2, hrun, hlen2, hperm, hplace⟩ :=
    rehashInto_spec (bb.alloc * 2) h2 bb.cells.flatten
      (List.replicate (bb.alloc * 2) []) (by simp)
  have hperm2 : List.Perm cells2.flatten bb.cells.flatten := by
    rw [flatten_replicate_nil, List.append_nil] at hperm
    exact hperm
  refine ⟨⟨cells2, bb.alloc * 2, bb.len⟩, ?_, rfl, rfl, ⟨⟨h2, hlen2⟩, ?_, ?_, ?_⟩, hperm2⟩
  · rw [ByteBox.resize, hrun]
  · intro j hj e he
    refine hplace ?_ j hj e he
    intro j2 hj2 e2 he2
    rw [getD_replicate_nil] at he2
    exact absurd he2 (List.not_mem_nil e2)
  · show ((cells2.flatten).map Entry.key).Nodup
    exact ((hperm2.map Entry.key).nodup_iff).mpr hnd
  · show bb.len = cells2.flatten.length
    rw [hlen]
    exact hperm2.length_eq.symm

/-! Key lists and entry counts of a table whose bucket at one index was
replaced, and the hashing invariant of such a table. -/

theorem map_key_flatten_decomp (cells : List Chain) (idx : Nat)
    (h : idx < cells.length) :
    cells.flatten.map Entry.key =
      ((cells.take idx).flatten.map Entry.key) ++
        (((cells.getD idx []).map Entry.key) ++
          ((cells.drop (idx + 1)).flatten.map Entry.key)) := by
  conv_lhs => rw [flatten_decomp cells idx h]
  simp

theorem map_key_flatten_set (cells : List Chain) (idx : Nat) (c : Chain)
    (h : idx < cells.length) :
    (cells.set idx c).flatten.map Entry.key =
      ((cells.take idx).flatten.map Entry.key) ++
        ((c.map Entry.key) ++
          ((cells.drop (idx + 1)).flatten.map Entry.key)) := by
  rw [flatten_set_decomp cells idx c h]
  simp

theorem length_flatten_decomp (cells : List Chain) (idx : Nat)
    (h : idx < cells.length) :
    cells.flatten.length =
      (cells.take idx).flatten.length +
        ((cells.getD idx []).length + (cells.drop (idx + 1)).flatten.length) := by
  conv_lhs => rw [flatten_decomp cells idx h]
  simp

theorem length_flatten_set (cells : List Chain) (idx : Nat) (c : Chain)
    (h : idx < cells.length) :
    (cells.set idx c).flatten.length =
      (cells.take idx).flatten.length +
        (c.length + (cells.drop (idx + 1)).flatten.length) := by
  rw [flatten_set_decomp cells idx c h]
  simp

theorem placed_set (bb : ByteBox) (idx : Nat) (c : Chain)
    (h : idx < bb.cells.length) (hp : bb.Placed)
    (hc : ∀ e ∈ c, hpulse e.key bb.alloc = some idx) (len0 : Nat) :
    (⟨bb.cells.set idx c, bb.alloc, len0⟩ : ByteBox).Placed := by
  intro j hj e he
  show hpulse e.key bb.alloc = some j
  have hj2 : j < bb.cells.length := by simpa using hj
  by_cases hji : idx = j
  · subst hji
    rw [show (⟨bb.cells.set idx c, bb.alloc, len0⟩ : ByteBox).cells.getD idx [] =
      (bb.cells.set idx c).getD idx [] from rfl, getD_set_self _ _ _ h] at he
    exact hc e he
  · rw [show (⟨bb.cells.set idx c, bb.alloc, len0⟩ : ByteBox).cells.getD j [] =
      (bb.cells.set idx c).getD j [] from rfl, getD_set_ne _ _ _ _ hji] at he
    exact hp j hj2 e he

/-! Full correctness of insert on an invariant-satisfying table: the resize
step runs exactly when the load factor strictly exceeds the threshold, the
written value is immediately readable, and the Boolean result reports
whether the key was previously absent. -/

theorem mem_keyList_iff_of_perm (bb bb1 : ByteBox)
    (hperm : List.Perm bb1.entries bb.entries) (k : List Nat) :
    k ∈ bb1.keyList ↔ k ∈ bb.keyList := by
  rw [ByteBox.keyList, ByteBox.keyList]
  exact (hperm.map Entry.key).mem_iff

theorem insert_step1 (bb : ByteBox) (h : bb.Inv) :
    ∃ bb1, (if 3 * bb.alloc < 4 * bb.len then bb.resize else some bb) = some bb1 ∧
      bb1.Inv ∧ List.Perm bb1.entries bb.entries ∧ bb1.len = bb.len ∧
      bb1.alloc = (if 3 * bb.alloc < 4 * bb.len then bb.alloc * 2 else bb.alloc) := by
  by_cases hr : 3 * bb.alloc < 4 * bb.len
  · rw [if_pos hr, if_pos hr]
    obtain ⟨bb2, hrun, ha, hl, hinv, hperm⟩ := resize_spec bb h
    exact ⟨bb2, hrun, hinv, hperm, hl, ha⟩
  · rw [if_neg hr, if_neg hr]
    exact ⟨bb, rfl, h, List.Perm.refl _, rfl, rfl⟩

theorem insert_eq (bb bb1 : ByteBox) (key val : List Nat) (idx : Nat)
    (hstep : (if 3 * bb.alloc < 4 * bb.len then bb.resize else some bb) = some bb1)
    (hidx : hpulse key bb1.alloc = some idx)
    (hlt : idx < bb1.cells.length) :
    bb.insert key val =
      match updateChain key val (bb1.cells.getD idx []) with
      | some chain2 => some ({ bb1 with cells := bb1.cells.set idx chain2 }, false)
      | none => some ({ bb1 with
          cells := bb1.cells.set idx
                     ({ key := key, val := val } :: bb1.cells.getD idx []),
          len := bb1.len + 1 }, true) := by
  rw [ByteBox.insert, hstep]
  show (match hpulse key bb1.alloc with
    | none => none
    | some idx2 =>
      if idx2 < bb1.cells.length then
        match updateChain key val (bb1.cells.getD idx2 []) with
        | some chain2 => some ({ bb1 with cells := bb1.cells.set idx2 chain2 }, false)
        | none => some ({ bb1 with
            cells := bb1.cells.set idx2
                       ({ key := key, val := val } :: bb1.cells.getD idx2 []),
            len := bb1.len + 1 }, true)
      else none) = _
  rw [hidx]
  show (if idx < bb1.cells.length then _ else none) = _
  rw [if_pos hlt]

theorem insert_spec (bb : ByteBox) (key val : List Nat) (h : bb.Inv) :
    ∃ bb2 added, bb.insert key val = some (bb2, added) ∧
      bb2.Inv ∧
      bb2.get key = some (some val) ∧
      (added = true ↔ key ∉ bb.keyList) ∧
      bb2.alloc = (if 3 * bb.alloc < 4 * bb.len then bb.alloc * 2 else bb.alloc) ∧
      (added = true → bb2.len = bb.len + 1) ∧
      (added = false → bb2.len = bb.len) := by
  obtain ⟨bb1, hstep, hinv1, hperm1, hlen1, halloc1⟩ := insert_step1 bb h
  obtain ⟨⟨hA1, hL1⟩, hp1, hnd1, hcnt1⟩ := hinv1
  have hidx : hpulse key bb1.alloc = some (fnv1a key % bb1.alloc) :=
    hpulse_some _ _ hA1
  have hlt : fnv1a key % bb1.alloc < bb1.cells.length := by
    rw [hL1]; exact Nat.mod_lt _ hA1
  have hins := insert_eq bb bb1 key val (fnv1a key % bb1.alloc) hstep hidx hlt
  have hmemiff : key ∈ bb.keyList ↔
      ∃ e ∈ bb1.cells.getD (fnv1a key % bb1.alloc) [], e.key = key := by
    rw [← mem_keyList_iff_of_perm bb bb1 hperm1 key]
    exact mem_keyList_iff_mem_home bb1 hp1 key _ hidx hlt
  cases hu : updateChain key val (bb1.cells.getD (fnv1a key % bb1.alloc) []) with
  | some chain2 =>
    rw [hu] at hins
    obtain ⟨hmap, hclen, hfind⟩ := updateChain_some_spec key val _ chain2 hu
    have hpresent : key ∈ bb.keyList := by
      rw [hmemiff]
      by_contra hc
      push_neg at hc
      have : updateChain key val (bb1.cells.getD (fnv1a key % bb1.alloc) []) = none :=
        (updateChain_eq_none_iff key val _).mpr hc
      rw [this] at hu
      exact Option.noConfusion hu
    refine ⟨_, false, hins, ⟨⟨hA1, by simpa using hL1⟩, ?_, ?_, ?_⟩, ?_, ?_, ?_, ?_, ?_⟩
    · exact placed_set bb1 _ chain2 hlt hp1
        (fun e he => by
          have : e.key ∈ chain2.map Entry.key := List.mem_map_of_mem Entry.key he
          rw [hmap] at this
          obtain ⟨e0, he0, hk0⟩ := List.mem_map.mp this
          rw [← hk0]
          exact hp1 _ hlt e0 he0) bb1.len
    · show ((bb1.cells.set (fnv1a key % bb1.alloc) chain2).flatten.map Entry.key).Nodup
      rw [map_key_flatten_set _ _ _ hlt, hmap, ← map_key_flatten_decomp _ _ hlt]
      exact hnd1
    · show bb1.len = (bb1.cells.set (fnv1a key % bb1.alloc) chain2).flatten.length
      rw [length_flatten_set _ _ _ hlt, hclen, ← length_flatten_decomp _ _ hlt]
      exact hcnt1
    · show ({ bb1 with cells := bb1.cells.set (fnv1a key % bb1.alloc) chain2 }
        : ByteBox).get key = some (some val)
      rw [ByteBox.get]
      show (match hpulse key bb1.alloc with
        | none => none
        | some idx =>
          if idx < (bb1.cells.set (fnv1a key % bb1.alloc) chain2).length then
            some (findChain key
              ((bb1.cells.set (fnv1a key % bb1.alloc) chain2).getD idx []))
          else none) = some (some val)
      rw [hidx]
      show (if fnv1a key % bb1.alloc <
          (bb1.cells.set (fnv1a key % bb1.alloc) chain2).length then
        some (findChain key
          ((bb1.cells.set (fnv1a key % bb1.alloc) chain2).getD
            (fnv1a key % bb1.alloc) []))
        else none) = some (some val)
      rw [if_pos (by simpa using hlt), getD_set_self _ _ _ hlt, hfind]
    · constructor
      · intro hfalse
        exact absurd hfalse (by simp)
      · intro habs
        exact absurd hpresent habs
    · exact halloc1
    · intro hfalse
      exact absurd hfalse (by simp)
    · intro _
      exact hlen1
  | none =>
    rw [hu] at hins
    have hfresh : ∀ e ∈ bb1.cells.getD (fnv1a key % bb1.alloc) [], e.key ≠ key :=
      (updateChain_eq_none_iff key val _).mp hu
    have habsent : key ∉ bb.keyList := by
      rw [hmemiff]
      rintro ⟨e, he, hek⟩
      exact hfresh e he hek
    have habsent1 : key ∉ bb1.keyList :=
      fun hmem => habsent ((mem_keyList_iff_of_perm bb bb1 hperm1 key).mp hmem)
    refine ⟨_, true, hins, ⟨⟨hA1, by simpa using hL1⟩, ?_, ?_, ?_⟩, ?_, ?_, ?_, ?_, ?_⟩
    · exact placed_set bb1 _ _ hlt hp1
        (fun e he => by
          rcases List.mem_cons.mp he with rfl | he
          · exact hidx
          · exact hp1 _ hlt e he) (bb1.len + 1)
    · show ((bb1.cells.set (fnv1a key % bb1.alloc)
        ({ key := key, val := val } ::
          bb1.cells.getD (fnv1a key % bb1.alloc) [])).flatten.map Entry.key).Nodup
      rw [map_key_flatten_set _ _ _ hlt]
      simp only [List.map_cons]
      rw [List.cons_append]
      have hperm3 : List.Perm
          (((bb1.cells.take (fnv1a key % bb1.alloc)).flatten.map Entry.key) ++
            key :: (((bb1.cells.getD (fnv1a key % bb1.alloc) []).map Entry.key) ++
              ((bb1.cells.drop (fnv1a key % bb1.alloc + 1)).flatten.map Entry.key)))
          (key :: (((bb1.cells.take (fnv1a key % bb1.alloc)).flatten.map
              Entry.key) ++
            (((bb1.cells.getD (fnv1a key % bb1.alloc) []).map Entry.key) ++
              ((bb1.cells.drop (fnv1a key % bb1.alloc + 1)).flatten.map
                Entry.key)))) :=
        List.perm_middle
      rw [hperm3.nodup_iff, List.nodup_cons]
      constructor
      · rw [show ((bb1.cells.take (fnv1a key % bb1.alloc)).flatten.map Entry.key) ++
          (((bb1.cells.getD (fnv1a key % bb1.alloc) []).map Entry.key) ++
            ((bb1.cells.drop (fnv1a key % bb1.alloc + 1)).flatten.map Entry.key)) =
          bb1.keyList from (map_key_flatten_decomp _ _ hlt).symm]
        exact habsent1
      · rw [show ((bb1.cells.take (fnv1a key % bb1.alloc)).flatten.map Entry.key) ++
          (((bb1.cells.getD (fnv1a key % bb1.alloc) []).map Entry.key) ++
            ((bb1.cells.drop (fnv1a key % bb1.alloc + 1)).flatten.map Entry.key)) =
          bb1.keyList from (map_key_flatten_decomp _ _ hlt).symm]
        exact hnd1
    · show bb1.len + 1 = (bb1.cells.set (fnv1a key % bb1.alloc)
        ({ key := key, val := val } ::
          bb1.cells.getD (fnv1a key % bb1.alloc) [])).flatten.length
      rw [length_flatten_set _ _ _ hlt]
      simp only [List.length_cons]
      rw [hcnt1, ByteBox.entries, length_flatten_decomp bb1.cells _ hlt]
      omega
    · show ({ bb1 with
        cells := bb1.cells.set (fnv1a key % bb1.alloc)
                   ({ key := key, val := val } ::
                     bb1.cells.getD (fnv1a key % bb1.alloc) []),
        len := bb1.len + 1 } : ByteBox).get key = some (some val)
      rw [ByteBox.get]
      show (match hpulse key bb1.alloc with
        | none => none
        | some idx =>
          if idx < (bb1.cells.set (fnv1a key % bb1.alloc)
              ({ key := key, val := val } ::
                bb1.cells.getD (fnv1a key % bb1.alloc) [])).length then
            some (findChain key
              ((bb1.cells.set (fnv1a key % bb1.alloc)
                ({ key := key, val := val } ::
                  bb1.cells.getD (fnv1a key % bb1.alloc) [])).getD idx []))
          else none) = some (some val)
      rw [hidx]
      show (if fnv1a key % bb1.alloc < (bb1.cells.set (fnv1a key % bb1.alloc)
          ({ key := key, val := val } ::
            bb1.cells.getD (fnv1a key % bb1.alloc) [])).length then
        some (findChain key
          ((bb1.cells.set (fnv1a key % bb1.alloc)
            ({ key := key, val := val } ::
              bb1.cells.getD (fnv1a key % bb1.alloc) [])).getD
            (fnv1a key % bb1.alloc) []))
        else none) = some (some val)
      rw [if_pos (by simpa using hlt), getD_set_self _ _ _ hlt]
      rw [findChain, if_pos rfl]
    · exact ⟨fun _ => habsent, fun _ => rfl⟩
    · exact halloc1
    · intro _
      show bb1.len + 1 = bb.len + 1
      rw [hlen1]
    · intro hfalse
      exact absurd hfalse (by simp)

/-! Full correctness of remove on an invariant-satisfying table. -/

theorem get_eq_of_wf (bb : ByteBox) (hA : 0 < bb.alloc)
    (hL : bb.cells.length = bb.alloc) (k : List Nat) :
    bb.get k = some (findChain k (bb.cells.getD (fnv1a k % bb.alloc) [])) := by
  rw [ByteBox.get, hpulse_some k bb.alloc hA]
  show (if fnv1a k % bb.alloc < bb.cells.length then
    some (findChain k (bb.cells.getD (fnv1a k % bb.alloc) [])) else none) = _
  rw [if_pos (by rw [hL]; exact Nat.mod_lt _ hA)]

theorem remove_eq (bb : ByteBox) (key : List Nat) (idx : Nat)
    (hidx : hpulse key bb.alloc = some idx) (hlt : idx < bb.cells.length) :
    bb.remove key =
      match removeChain key (bb.cells.getD idx []) with
      | some (chain2, v) =>
        some ({ bb with cells := bb.cells.set idx chain2, len := bb.len - 1 },
          some v)
      | none => some (bb, none) := by
  rw [ByteBox.remove, hidx]
  show (if idx < bb.cells.length then
    match removeChain key (bb.cells.getD idx []) with
    | some (chain2, v) =>
      some ({ bb with cells := bb.cells.set idx chain2, len := bb.len - 1 },
        some v)
    | none => some (bb, none)
    else none) = _
  rw [if_pos hlt]

theorem remove_spec (bb : ByteBox) (key : List Nat) (h : bb.Inv) :
    (bb.get key = some none → bb.remove key = some (bb, none)) ∧
    (∀ v, bb.get key = some (some v) →
      ∃ bb2, bb.remove key = some (bb2, some v) ∧ bb2.Inv ∧
        bb2.alloc = bb.alloc ∧ bb2.len + 1 = bb.len ∧
        bb2.get key = some none ∧
        (∀ k2, k2 ≠ key → bb2.get k2 = bb.get k2) ∧
        bb2.remove key = some (bb2, none)) := by
  obtain ⟨⟨hA, hL⟩, hp, hnd, hcnt⟩ := h
  have hidx := hpulse_some key bb.alloc hA
  have hlt : fnv1a key % bb.alloc < bb.cells.length := by
    rw [hL]; exact Nat.mod_lt _ hA
  have hrm := remove_eq bb key _ hidx hlt
  have hget := get_eq_of_wf bb hA hL key
  constructor
  · intro hnone
    rw [hget] at hnone
    have hfall : ∀ e ∈ bb.cells.getD (fnv1a key % bb.alloc) [], e.key ≠ key :=
      (findChain_eq_none_iff key _).mp (Option.some.inj hnone)
    rw [(removeChain_eq_none_iff key _).mpr hfall] at hrm
    exact hrm
  · intro v hv
    rw [hget] at hv
    have hfind : findChain key (bb.cells.getD (fnv1a key % bb.alloc) []) = some v :=
      Option.some.inj hv
    cases hr : removeChain key (bb.cells.getD (fnv1a key % bb.alloc) []) with
    | none =>
      rw [(findChain_eq_none_iff key _).mpr
        ((removeChain_eq_none_iff key _).mp hr)] at hfind
      exact Option.noConfusion hfind
    | some p =>
      obtain ⟨chain2, v2⟩ := p
      obtain ⟨hfind2, hclen, hsub, hother⟩ := removeChain_some_spec key v2 _ chain2 hr
      obtain rfl : v2 = v := by rw [hfind2] at hfind; exact Option.some.inj hfind
      rw [hr] at hrm
      have hout : ∀ e ∈ chain2, e.key ≠ key :=
        removeChain_key_out key v2 _ chain2 (nodup_home bb hnd _ hlt) hr
      have hlenpos : 0 < bb.len := by
        rw [hcnt, ByteBox.entries, length_flatten_decomp bb.cells _ hlt]
        omega
      have hA2 : 0 < (⟨bb.cells.set (fnv1a key % bb.alloc) chain2, bb.alloc,
          bb.len - 1⟩ : ByteBox).alloc := hA
      have hL2 : (⟨bb.cells.set (fnv1a key % bb.alloc) chain2, bb.alloc,
          bb.len - 1⟩ : ByteBox).cells.length =
          (⟨bb.cells.set (fnv1a key % bb.alloc) chain2, bb.alloc,
            bb.len - 1⟩ : ByteBox).alloc := by
        show (bb.cells.set (fnv1a key % bb.alloc) chain2).length = bb.alloc
        simp [hL]
      refine ⟨_, hrm, ⟨⟨hA2, hL2⟩, ?_, ?_, ?_⟩, rfl, ?_, ?_, ?_, ?_⟩
      · exact placed_set bb _ chain2 hlt hp
          (fun e he => hp _ hlt e (hsub.subset he)) (bb.len - 1)
      · show ((bb.cells.set (fnv1a key % bb.alloc) chain2).flatten.map
          Entry.key).Nodup
        rw [map_key_flatten_set _ _ _ hlt]
        refine hnd.sublist ?_
        rw [ByteBox.keyList, ByteBox.entries, map_key_flatten_decomp bb.cells _ hlt]
        exact List.Sublist.append (List.Sublist.refl _)
          (List.Sublist.append (hsub.map Entry.key) (List.Sublist.refl _))
      · show bb.len - 1 = ((bb.cells.set (fnv1a key % bb.alloc) chain2).flatten).length
        rw [length_flatten_set _ _ _ hlt]
        rw [hcnt, ByteBox.entries, length_flatten_decomp bb.cells _ hlt]
        omega
      · show bb.len - 1 + 1 = bb.len
        omega
      · rw [get_eq_of_wf _ hA2 hL2 key]
        show some (findChain key
          ((bb.cells.set (fnv1a key % bb.alloc) chain2).getD
            (fnv1a key % bb.alloc) [])) = some none
        rw [getD_set_self _ _ _ hlt, (findChain_eq_none_iff key chain2).mpr hout]
      · intro k2 hk2
        rw [get_eq_of_wf _ hA2 hL2 k2, get_eq_of_wf bb hA hL k2]
        show some (findChain k2
          ((bb.cells.set (fnv1a key % bb.alloc) chain2).getD
            (fnv1a k2 % bb.alloc) [])) = _
        by_cases hsame : fnv1a key % bb.alloc = fnv1a k2 % bb.alloc
        · rw [← hsame, getD_set_self _ _ _ hlt, hother k2 hk2]
        · rw [getD_set_ne _ _ _ _ hsame]
      · have hidx2 : hpulse key (⟨bb.cells.set (fnv1a key % bb.alloc) chain2,
            bb.alloc, bb.len - 1⟩ : ByteBox).alloc = some (fnv1a key % bb.alloc) :=
          hidx
        have hlt2 : fnv1a key % bb.alloc < (⟨bb.cells.set (fnv1a key % bb.alloc)
            chain2, bb.alloc, bb.len - 1⟩ : ByteBox).cells.length := by
          show fnv1a key % bb.alloc <
            (bb.cells.set (fnv1a key % bb.alloc) chain2).length
          simpa using hlt
        rw [remove_eq _ key _ hidx2 hlt2]
        show (match removeChain key
            ((bb.cells.set (fnv1a key % bb.alloc) chain2).getD
              (fnv1a key % bb.alloc) []) with
          | some (chain3, v3) =>
            some ((⟨(bb.cells.set (fnv1a key % bb.alloc) chain2).set
                (fnv1a key % bb.alloc) chain3, bb.alloc,
                bb.len - 1 - 1⟩ : ByteBox), some v3)
          | none =>
            some ((⟨bb.cells.set (fnv1a key % bb.alloc) chain2, bb.alloc,
              bb.len - 1⟩ : ByteBox), none)) = _
        rw [getD_set_self _ _ _ hlt, (removeChain_eq_none_iff key chain2).mpr hout]


/-! Claim theorems. -/

/-- Claim C1 (code bug): the pair iterator of src/src/lib.rs does NOT yield
len() pairs covering every stored key — its next method returns only the head
entry of each non-empty bucket and never follows the chain, contradicting the
doc comment of ByteBox::iter (lines 644-647, which promises traversal of the
linked list).  Concretely: after inserting the colliding keys [0] and [8]
(both hash to bucket 7 of 8), the table stores 2 pairs but the iterator
yields only the single pair ([8], [11]), dropping key [0] entirely. -/
theorem iter_first_entry_only :
    (insertSeq (ByteBox.prealloc 8) [([0], [10]), ([8], [11])]).map
        (fun bb => (bb.iterPairs, bb.len)) = some ([([8], [11])], 2) ∧
    hpulse [0] 8 = some 7 ∧ hpulse [8] 8 = some 7 := by
  decide

/-- Claim C2: on every reachable table, immediately after insert(k, v) a
get(k) returns v; insert returns true exactly when k was absent beforehand,
and false exactly when k was already present (its value then being
overwritten, so the subsequent get sees the newest value). -/
theorem insert_get_roundtrip (bb : ByteBox) (key val : List Nat) (h : bb.Inv) :
    ∃ bb2 added, bb.insert key val = some (bb2, added) ∧
      bb2.get key = some (some val) ∧
      (added = true ↔ bb.get key = some none) ∧
      (added = false ↔ ∃ v0, bb.get key = some (some v0)) := by
  obtain ⟨bb2, added, hins, _, hget2, hiff, _, _, _⟩ := insert_spec bb key val h
  refine ⟨bb2, added, hins, hget2, ?_, ?_⟩
  · rw [hiff, get_none_iff bb h key]
  · constructor
    · intro hf
      have hkmem : key ∈ bb.keyList := by
        by_contra hc
        rw [← hiff] at hc
        rw [hf] at hc
        exact Bool.noConfusion hc
      rw [ByteBox.keyList, List.mem_map] at hkmem
      obtain ⟨e, he, hek⟩ := hkmem
      exact ⟨e.val, (get_some_iff bb h key e.val).mpr ⟨e, he, hek, rfl⟩⟩
    · rintro ⟨v0, hv0⟩
      cases added with
      | false => rfl
      | true =>
        rw [(get_none_iff bb h key).mpr (hiff.mp rfl)] at hv0
        exact Option.noConfusion (Option.some.inj hv0)

/-- Claim C2 witness at a concrete input. -/
theorem insert_get_roundtrip_witness :
    (ByteBox.prealloc 8).Inv ∧
    ∃ bb2 added, (ByteBox.prealloc 8).insert [0] [10] = some (bb2, added) ∧
      bb2.get [0] = some (some [10]) ∧
      (added = true ↔ (ByteBox.prealloc 8).get [0] = some none) ∧
      (added = false ↔ ∃ v0, (ByteBox.prealloc 8).get [0] = some (some v0)) :=
  ⟨by decide, insert_get_roundtrip (ByteBox.prealloc 8) [0] [10] (by decide)⟩

/-- Claim C3 counterexample: the claim says insert grows the table whenever
the load factor is at or above 0.75, but the code resizes only when it is
strictly above (load_factor() > 0.75).  With capacity 4 and 3 stored keys the
load factor is exactly 0.75, yet the 4th insert leaves the allocation at 4. -/
theorem resize_at_threshold_counterexample :
    (insertSeq (ByteBox.prealloc 4) [([0], [0]), ([1], [0]), ([2], [0])]).map
        (fun bb => (bb.len, bb.alloc)) = some (3, 4) ∧
    (insertSeq (ByteBox.prealloc 4)
        [([0], [0]), ([1], [0]), ([2], [0]), ([3], [0])]).map
        (fun bb => (bb.len, bb.alloc)) = some (4, 4) := by
  decide

/-- Claim C3 (amended): insert evaluates the load factor before locating the
target bucket and doubles the capacity exactly when the load factor is
strictly above 0.75 (not at the threshold); the check precedes the
new-vs-present determination, so the resulting allocation does not depend on
whether the insert overwrites an existing key. -/
theorem insert_resize_policy (bb : ByteBox) (key val : List Nat) (h : bb.Inv) :
    ∃ bb2 added, bb.insert key val = some (bb2, added) ∧
      bb2.alloc = (if 3 * bb.alloc < 4 * bb.len then bb.alloc * 2 else bb.alloc) := by
  obtain ⟨bb2, added, hins, _, _, _, halloc, _, _⟩ := insert_spec bb key val h
  exact ⟨bb2, added, hins, halloc⟩

/-- Claim C3 witness: a full table (1 key in capacity 1, load factor 1 > 0.75)
whose key is re-inserted; the overwriting insert still doubles the capacity. -/
theorem insert_resize_policy_witness :
    (⟨[[⟨[0], [5]⟩]], 1, 1⟩ : ByteBox).Inv ∧
    ∃ bb2 added, (⟨[[⟨[0], [5]⟩]], 1, 1⟩ : ByteBox).insert [0] [6] =
        some (bb2, added) ∧
      bb2.alloc = (if 3 * 1 < 4 * 1 then 1 * 2 else 1) :=
  ⟨by decide, insert_resize_policy (⟨[[⟨[0], [5]⟩]], 1, 1⟩ : ByteBox) [0] [6]
    (by decide)⟩

/-- Claim C4: clear() discards every chain, resets every bucket slot to empty
and sets the count to 0 while the capacity is retained; afterwards len() = 0
and get returns empty for every key (in particular every previously stored
one).  The clear operation is modelled from the spec because no clear method
appears in src/src/lib.rs. -/
theorem clear_resets (bb : ByteBox) (h : bb.WF) :
    bb.clear.len = 0 ∧ bb.clear.alloc = bb.alloc ∧
    ∀ key, bb.clear.get key = some none := by
  refine ⟨rfl, rfl, fun key => ?_⟩
  have hA : 0 < bb.alloc := h.1
  have hL2 : (ByteBox.clear bb).cells.length = (ByteBox.clear bb).alloc := by
    show (List.replicate bb.alloc ([] : Chain)).length = bb.alloc
    simp
  rw [get_eq_of_wf bb.clear hA hL2 key]
  show some (findChain key ((List.replicate bb.alloc ([] : Chain)).getD
    (fnv1a key % bb.alloc) [])) = some none
  rw [getD_replicate_nil]
  rfl

/-- Claim C4 witness: a table holding two pairs; after clear, len is 0, the
capacity 2 is unchanged and both stored keys read back empty. -/
theorem clear_resets_witness :
    (⟨[[⟨[1], [7]⟩], [⟨[0], [9]⟩]], 2, 2⟩ : ByteBox).WF ∧
    (⟨[[⟨[1], [7]⟩], [⟨[0], [9]⟩]], 2, 2⟩ : ByteBox).clear.len = 0 ∧
    (⟨[[⟨[1], [7]⟩], [⟨[0], [9]⟩]], 2, 2⟩ : ByteBox).clear.alloc = 2 ∧
    (⟨[[⟨[1], [7]⟩], [⟨[0], [9]⟩]], 2, 2⟩ : ByteBox).clear.get [1] = some none ∧
    (⟨[[⟨[1], [7]⟩], [⟨[0], [9]⟩]], 2, 2⟩ : ByteBox).clear.get [0] = some none :=
  ⟨by decide,
    (clear_resets (⟨[[⟨[1], [7]⟩], [⟨[0], [9]⟩]], 2, 2⟩ : ByteBox) (by decide)).1,
    (clear_resets (⟨[[⟨[1], [7]⟩], [⟨[0], [9]⟩]], 2, 2⟩ : ByteBox) (by decide)).2.1,
    (clear_resets (⟨[[⟨[1], [7]⟩], [⟨[0], [9]⟩]], 2, 2⟩ : ByteBox) (by decide)).2.2 [1],
    (clear_resets (⟨[[⟨[1], [7]⟩], [⟨[0], [9]⟩]], 2, 2⟩ : ByteBox) (by decide)).2.2 [0]⟩

/-- Claim C5 (code bug): construction with zero capacity is NOT rejected —
prealloc(0) produces a zero-bucket table as-is, there is no minimum capacity,
and the very next insert (or get or remove) panics in hpulse on the modulo-by
zero reduction (modelled by none), contradicting the insert documentation
that promises the method does not panic. -/
theorem prealloc_zero_accepted :
    ByteBox.prealloc 0 = ⟨[], 0, 0⟩ ∧
    (ByteBox.prealloc 0).insert [104] [105] = none ∧
    (ByteBox.prealloc 0).get [104] = none ∧
    (ByteBox.prealloc 0).remove [104] = none := by
  decide

/-- Claim C6: when keys share a bucket, each remains independently
retrievable and removable: remove of a present key k1 unlinks exactly that
node (the count drops by exactly one and k1 itself reads back empty), and the
lookup of every other key k2 — including one in the very same chain — is
unchanged. -/
theorem collision_independent_remove (bb : ByteBox) (k1 k2 v1 : List Nat)
    (h : bb.Inv) (hne : k2 ≠ k1) (hget : bb.get k1 = some (some v1)) :
    ∃ bb2, bb.remove k1 = some (bb2, some v1) ∧ bb2.len + 1 = bb.len ∧
      bb2.get k2 = bb.get k2 ∧ bb2.get k1 = some none := by
  obtain ⟨bb2, hrm, _, _, hlen, hgone, hoth, _⟩ := (remove_spec bb k1 h).2 v1 hget
  exact ⟨bb2, hrm, hlen, hoth k2 hne, hgone⟩

/-- Claim C6 witness: keys [0] and [8] collide in bucket 7 of 8; removing the
chain-tail key [0] (the predecessor-link case) keeps [8] retrievable. -/
theorem collision_independent_remove_witness :
    (⟨[[], [], [], [], [], [], [], [⟨[8], [11]⟩, ⟨[0], [10]⟩]], 8, 2⟩
      : ByteBox).Inv ∧
    ([8] : List Nat) ≠ [0] ∧
    (⟨[[], [], [], [], [], [], [], [⟨[8], [11]⟩, ⟨[0], [10]⟩]], 8, 2⟩
      : ByteBox).get [0] = some (some [10]) ∧
    hpulse [0] 8 = hpulse [8] 8 ∧
    ∃ bb2, (⟨[[], [], [], [], [], [], [], [⟨[8], [11]⟩, ⟨[0], [10]⟩]], 8, 2⟩
        : ByteBox).remove [0] = some (bb2, some [10]) ∧
      bb2.len + 1 = 2 ∧
      bb2.get [8] = (⟨[[], [], [], [], [], [], [], [⟨[8], [11]⟩, ⟨[0], [10]⟩]],
        8, 2⟩ : ByteBox).get [8] ∧
      bb2.get [0] = some none :=
  ⟨by decide, by decide, by decide, by decide,
    collision_independent_remove
      (⟨[[], [], [], [], [], [], [], [⟨[8], [11]⟩, ⟨[0], [10]⟩]], 8, 2⟩ : ByteBox)
      [0] [8] [10] (by decide) (by decide) (by decide)⟩

/-- Claim C7: a successful remove(k) returns the stored value and decrements
the count by one, after which get(k) is empty and a second remove(k) is also
empty (leaving the state untouched); remove of an absent key returns empty
and leaves the table, count included, completely unchanged. -/
theorem remove_semantics (bb : ByteBox) (key : List Nat) (h : bb.Inv) :
    (∀ v, bb.get key = some (some v) →
      ∃ bb2, bb.remove key = some (bb2, some v) ∧ bb2.len + 1 = bb.len ∧
        bb2.get key = some none ∧ bb2.remove key = some (bb2, none)) ∧
    (bb.get key = some none → bb.remove key = some (bb, none)) := by
  obtain ⟨habs, hpres⟩ := remove_spec bb key h
  refine ⟨fun v hv => ?_, habs⟩
  obtain ⟨bb2, hrm, _, _, hlen, hgone, _, hsecond⟩ := hpres v hv
  exact ⟨bb2, hrm, hlen, hgone, hsecond⟩

/-- Claim C7 witness: removing the chain-head key [8] (the bucket-slot case),
then removing it again; and removing the absent key [3]. -/
theorem remove_semantics_witness :
    (⟨[[], [], [], [], [], [], [], [⟨[8], [11]⟩, ⟨[0], [10]⟩]], 8, 2⟩
      : ByteBox).Inv ∧
    (∃ bb2, (⟨[[], [], [], [], [], [], [], [⟨[8], [11]⟩, ⟨[0], [10]⟩]], 8, 2⟩
        : ByteBox).remove [8] = some (bb2, some [11]) ∧ bb2.len + 1 = 2 ∧
      bb2.get [8] = some none ∧ bb2.remove [8] = some (bb2, none)) ∧
    (⟨[[], [], [], [], [], [], [], [⟨[8], [11]⟩, ⟨[0], [10]⟩]], 8, 2⟩
      : ByteBox).remove [3] =
      some (⟨[[], [], [], [], [], [], [], [⟨[8], [11]⟩, ⟨[0], [10]⟩]], 8, 2⟩, none) :=
  ⟨by decide,
    (remove_semantics
      (⟨[[], [], [], [], [], [], [], [⟨[8], [11]⟩, ⟨[0], [10]⟩]], 8, 2⟩ : ByteBox)
      [8] (by decide)).1 [11] (by decide),
    (remove_semantics
      (⟨[[], [], [], [], [], [], [], [⟨[8], [11]⟩, ⟨[0], [10]⟩]], 8, 2⟩ : ByteBox)
      [3] (by decide)).2 (by decide)⟩

/-- Claim C8: resize doubles the capacity exactly (capacity * 2), preserves
len() and every lookup (each stored key stays reachable in the chain of its
recomputed home bucket — the re-established invariant), and capacity never
shrinks: insert can only grow the allocation and remove leaves it unchanged;
insert also preserves the reachability invariant, so the property persists
across any sequence of inserts. -/
theorem resize_preserves_data (bb : ByteBox) (h : bb.Inv) :
    (∃ bb2, bb.resize = some bb2 ∧ bb2.alloc = bb.alloc * 2 ∧ bb2.len = bb.len ∧
      bb2.Inv ∧ ∀ k, bb2.get k = bb.get k) ∧
    (∀ key val bb2 added, bb.insert key val = some (bb2, added) →
      bb2.Inv ∧ bb.alloc ≤ bb2.alloc) ∧
    (∀ key bb2 r, bb.remove key = some (bb2, r) → bb2.alloc = bb.alloc) := by
  refine ⟨?_, ?_, ?_⟩
  · obtain ⟨bb2, hrun, ha, hl, hinv, hperm⟩ := resize_spec bb h
    exact ⟨bb2, hrun, ha, hl, hinv, fun k => get_congr_of_perm bb bb2 h hinv hperm k⟩
  · intro key val bb2 added hins
    obtain ⟨bb3, added3, hins3, hinv3, _, _, halloc3, _, _⟩ := insert_spec bb key val h
    rw [hins] at hins3
    have hp := Option.some.inj hins3
    obtain rfl : bb2 = bb3 := congrArg Prod.fst hp
    refine ⟨hinv3, ?_⟩
    rw [halloc3]
    by_cases hr : 3 * bb.alloc < 4 * bb.len
    · rw [if_pos hr]
      omega
    · rw [if_neg hr]
  · intro key bb2 r hrm
    have hget := get_eq_of_wf bb h.1.1 h.1.2 key
    cases hf : findChain key (bb.cells.getD (fnv1a key % bb.alloc) []) with
    | none =>
      have hres := (remove_spec bb key h).1 (by rw [hget, hf])
      rw [hrm] at hres
      have hp := Option.some.inj hres
      have h1 : bb2 = bb := congrArg Prod.fst hp
      rw [h1]
    | some v =>
      obtain ⟨bb3, hrm3, _, halloc3, _, _, _, _⟩ :=
        (remove_spec bb key h).2 v (by rw [hget, hf])
      rw [hrm] at hrm3
      have hp := Option.some.inj hrm3
      have h1 : bb2 = bb3 := congrArg Prod.fst hp
      rw [h1, halloc3]

/-- Claim C8 witness: resizing a 2-key table of capacity 2 doubles the
capacity to 4, keeps both pairs readable and keeps len() = 2. -/
theorem resize_preserves_data_witness :
    (⟨[[⟨[1], [7]⟩], [⟨[0], [9]⟩]], 2, 2⟩ : ByteBox).Inv ∧
    ∃ bb2, (⟨[[⟨[1], [7]⟩], [⟨[0], [9]⟩]], 2, 2⟩ : ByteBox).resize = some bb2 ∧
      bb2.alloc = 2 * 2 ∧ bb2.len = 2 ∧ bb2.Inv ∧
      ∀ k, bb2.get k = (⟨[[⟨[1], [7]⟩], [⟨[0], [9]⟩]], 2, 2⟩ : ByteBox).get k :=
  ⟨by decide,
    (resize_preserves_data (⟨[[⟨[1], [7]⟩], [⟨[0], [9]⟩]], 2, 2⟩ : ByteBox)
      (by decide)).1⟩

/-- Claim C9: the indexer hpulse is a pure deterministic function of the key
bytes and the capacity; for every capacity > 0 it succeeds, computes exactly
the FNV-1a variant written in the spec (offset basis, per byte XOR then
multiply by the prime modulo 2^64, final reduction modulo the capacity), and
its result lies in [0, capacity). -/
theorem hpulse_contract (key : List Nat) (capacity : Nat) (h : 0 < capacity) :
    hpulse key capacity = some (indexSpec key capacity) ∧
    indexSpec key capacity < capacity := by
  constructor
  · rw [hpulse_some key capacity h]
    rfl
  · show _ % capacity < capacity
    exact Nat.mod_lt _ h

/-- Claim C9 witness at a concrete key and capacity. -/
theorem hpulse_contract_witness :
    0 < 16 ∧ hpulse [104, 105] 16 = some (indexSpec [104, 105] 16) ∧
    indexSpec [104, 105] 16 < 16 :=
  ⟨by decide, hpulse_contract [104, 105] 16 (by decide)⟩

/-- Helper for claim C10: on any well-formed table (positive allocation,
bucket array of that length) insert cannot hit the modulo-by-zero panic. -/
theorem insert_isSome_of_wf (bb : ByteBox) (hW : bb.WF) (key val : List Nat) :
    (bb.insert key val).isSome := by
  obtain ⟨hA, hL⟩ := hW
  have hstep : ∃ bb1, (if 3 * bb.alloc < 4 * bb.len then bb.resize else some bb) =
      some bb1 ∧ 0 < bb1.alloc ∧ bb1.cells.length = bb1.alloc := by
    by_cases hr : 3 * bb.alloc < 4 * bb.len
    · rw [if_pos hr]
      obtain ⟨cells2, hrun, hlen2, _, _⟩ := rehashInto_spec (bb.alloc * 2)
        (by omega) bb.cells.flatten (List.replicate (bb.alloc * 2) []) (by simp)
      refine ⟨⟨cells2, bb.alloc * 2, bb.len⟩, ?_, by show 0 < bb.alloc * 2; omega,
        hlen2⟩
      rw [ByteBox.resize, hrun]
    · rw [if_neg hr]
      exact ⟨bb, rfl, hA, hL⟩
  obtain ⟨bb1, hstep, hA1, hL1⟩ := hstep
  have hidx := hpulse_some key bb1.alloc hA1
  have hlt : fnv1a key % bb1.alloc < bb1.cells.length := by
    rw [hL1]; exact Nat.mod_lt _ hA1
  rw [insert_eq bb bb1 key val _ hstep hidx hlt]
  cases updateChain key val (bb1.cells.getD (fnv1a key % bb1.alloc) []) with
  | some chain2 => rfl
  | none => rfl

/-- Claim C10: prealloc(0) succeeds and yields an empty bucket array; on that
table every insert, get and remove panics at the final modulo reduction of
hpulse (modelled by none), while on any table whose allocation is at least 1
(and whose bucket array has that length) those operations are panic-free. -/
theorem zero_alloc_hpulse_panics :
    (ByteBox.prealloc 0).cells = [] ∧
    (∀ key val, (ByteBox.prealloc 0).insert key val = none) ∧
    (∀ key, (ByteBox.prealloc 0).get key = none) ∧
    (∀ key, (ByteBox.prealloc 0).remove key = none) ∧
    (∀ bb : ByteBox, bb.WF → ∀ key val,
      (bb.insert key val).isSome ∧ (bb.get key).isSome ∧ (bb.remove key).isSome) := by
  refine ⟨rfl, fun key val => rfl, fun key => rfl, fun key => rfl,
    fun bb hW key val => ⟨insert_isSome_of_wf bb hW key val, ?_, ?_⟩⟩
  · rw [get_eq_of_wf bb hW.1 hW.2 key]
    rfl
  · rw [remove_eq bb key _ (hpulse_some key bb.alloc hW.1)
      (by rw [hW.2]; exact Nat.mod_lt _ hW.1)]
    cases removeChain key (bb.cells.getD (fnv1a key % bb.alloc) []) with
    | none => rfl
    | some p =>
      obtain ⟨chain2, v⟩ := p
      rfl

/-- Claim C10 witness: the operations succeed on a well-formed table of
capacity 3 and insert panics on the zero-capacity table. -/
theorem zero_alloc_hpulse_panics_witness :
    (ByteBox.prealloc 3).WF ∧
    ((ByteBox.prealloc 3).insert [1] [2]).isSome ∧
    ((ByteBox.prealloc 3).get [1]).isSome ∧
    ((ByteBox.prealloc 3).remove [1]).isSome ∧
    (ByteBox.prealloc 0).insert [1] [2] = none :=
  ⟨by decide,
    (zero_alloc_hpulse_panics.2.2.2.2 (ByteBox.prealloc 3) (by decide) [1] [2]).1,
    (zero_alloc_hpulse_panics.2.2.2.2 (ByteBox.prealloc 3) (by decide) [1] [2]).2.1,
    (zero_alloc_hpulse_panics.2.2.2.2 (ByteBox.prealloc 3) (by decide) [1] [2]).2.2,
    zero_alloc_hpulse_panics.2.1 [1] [2]⟩

end Bytesbox

